import Mathlib

/-!
Verification of the khmer counting-engine header (`src/lib/hashtable.hh`).

The repository exposes only the `Hashtable` facade header under `src/`;
the bodies of the key codec (`_hash` / `_revhash` from `kmer_hash`), the
storage variants (`storage.hh`), and the sequence-scanning algorithms
(`hashtable.cc`) are declared there but live outside `src/`.  Definitions
for those parts are modelled from the specification (`spec.md`) and are
marked `Modelled from the spec:` in their doc comments.  Everything that
is literally in `src/lib/hashtable.hh` (the delegating overloads of
`count` / `add` / `get_count`, `_init_bitstuff`, `save` / `load`
delegation) is embedded directly from that source.

Sequences are `List Char`, keys (`HashIntoType`, a `uint64_t`) are `Nat`
(the only place where 64-bit wraparound can occur for constructible
engines is `_init_bitstuff`, where it is modelled with an explicit
`% 2 ^ 64`), counters are `Nat` bounded by the variant maximum.
-/

namespace Khmer

/-- Modelled from the spec: the 2-bit nucleotide code used by the rolling
hash (§4.1, "2-bit nucleotide codes", case-insensitive; the concrete
assignment A=0, C=1, G=2, T=3 is one of the equivalent choices; the body
of `_hash` is not under `src/`).  Non-ACGT input is rejected before it
reaches the codec (§4.3), so the default branch is never hit on valid
windows. -/
def twobit : Char → Nat
  | 'A' => 0
  | 'a' => 0
  | 'C' => 1
  | 'c' => 1
  | 'G' => 2
  | 'g' => 2
  | 'T' => 3
  | _ => 3

/-- Modelled from the spec: inverse 2-bit code (§4.1 `unhash`). -/
def revtwobit : Nat → Char
  | 0 => 'A'
  | 1 => 'C'
  | 2 => 'G'
  | _ => 'T'

/-- The four valid (uppercase) nucleotide characters. -/
def dnaChars : List Char := ['A', 'C', 'G', 'T']

/-- Modelled from the spec: `hash_forward` (§4.1) — rolling polynomial
accumulation of the 2-bit codes over the window, masked to `2K` bits
(`h*4 + code` is `(h << 2) | code` for codes `< 4`). -/
def hash_forward (k : Nat) (s : List Char) : Nat :=
  (s.foldl (fun h c => h * 4 + twobit c) 0) % 4 ^ k

/-- Modelled from the spec: `unhash` (§4.1) — exact inverse of
`hash_forward`, reconstructing the K-length string from the low `2K`
bits, most significant digit first. -/
def revhash : Nat → Nat → List Char
  | 0, _ => []
  | k + 1, h => revhash k (h / 4) ++ [revtwobit (h % 4)]

/-- The unmasked rolling accumulation. -/
def hashAcc (s : List Char) : Nat :=
  s.foldl (fun h c => h * 4 + twobit c) 0

/-- Modelled from the spec: the counting store (§4.2, `storage.hh` is not
under `src/`).  A table is its raw counter array (`List Nat`, one slot
per position, the table size being the array length); `maxCount` is the
variant's saturation maximum (1 for bit, 15 for nibble, 255 for byte
storage, §3); `bigcounts` is the optional overflow map, kept as the
(key, exact count) pair list of the persisted layout (§6). -/
structure Storage where
  maxCount : Nat
  tables : List (List Nat)
  use_bigcount : Bool
  bigcounts : List (Nat × Nat)
deriving DecidableEq, Repr

/-- Modelled from the spec: a freshly constructed store — every counter
zero, overflow tracking off, overflow map empty (§4.2 construction). -/
def Storage.init (max : Nat) (sizes : List Nat) : Storage :=
  ⟨max, sizes.map (fun sz => List.replicate sz 0), false, []⟩

/-- Modelled from the spec: `set_use_bigcount` toggles overflow-map
tracking (§4.2). -/
def Storage.set_use_bigcount (st : Storage) (b : Bool) : Storage :=
  { st with use_bigcount := b }

/-- Modelled from the spec: `get_use_bigcount` (§4.2). -/
def Storage.get_use_bigcount (st : Storage) : Bool :=
  st.use_bigcount

/-- Whether the counter for `key` in table `t` is already at the
saturation maximum `max`. -/
def tableFull (max key : Nat) (t : List Nat) : Bool :=
  decide (max ≤ t.getD (key % t.length) 0)

/-- Modelled from the spec: one table's part of `add` — increment the
counter at `key mod table_size` by 1 if not already at the maximum
(§4.2). -/
def tableBump (max key : Nat) (t : List Nat) : List Nat :=
  if max ≤ t.getD (key % t.length) 0 then t
  else t.set (key % t.length) (t.getD (key % t.length) 0 + 1)

/-- Modelled from the spec: overflow-map update — the first promotion
installs `maximum + 1` for the key, later ones increment the exact count
(§4.2: "first time transitions from no entry to maximum+1"). -/
def bigIncr (key max : Nat) : List (Nat × Nat) → List (Nat × Nat)
  | [] => [(key, max + 1)]
  | (k, c) :: rest =>
    if k = key then (k, c + 1) :: rest else (k, c) :: bigIncr key max rest

/-- Modelled from the spec: `add(key)` (§4.2) — bump every table's
counter at `key mod table_size` (saturating), and, when overflow
tracking is enabled and the key's counters were already saturated in
every table, promote/increment the overflow map entry. -/
def Storage.add (st : Storage) (key : Nat) : Storage :=
  { st with
    tables := st.tables.map (tableBump st.maxCount key)
    bigcounts :=
      if st.use_bigcount && st.tables.all (tableFull st.maxCount key) then
        bigIncr key st.maxCount st.bigcounts
      else st.bigcounts }

/-- The Bloom-consensus estimate: minimum counter value across all
tables at the key's slots (§4.2); the fold starts from the saturation
maximum, which every counter is bounded by. -/
def Storage.minCount (st : Storage) (key : Nat) : Nat :=
  st.tables.foldr (fun t m => min (t.getD (key % t.length) 0) m) st.maxCount

/-- Modelled from the spec: `get_count(key)` (§4.2) — if overflow
tracking is enabled and an overflow entry exists for the key, return it
directly; otherwise return the consensus minimum across the tables. -/
def Storage.get_count (st : Storage) (key : Nat) : Nat :=
  if st.use_bigcount then
    match st.bigcounts.lookup key with
    | some c => c
    | none => st.minCount key
  else st.minCount key

/-- Table sizes, one entry per table (§4.2 `get_tablesizes`). -/
def Storage.get_tablesizes (st : Storage) : List Nat :=
  st.tables.map List.length

/-- Number of tables (§4.2 `n_tables`). -/
def Storage.n_tables (st : Storage) : Nat :=
  st.tables.length

/-- Format magic tag of the persisted table format (§6; the concrete
value is immaterial to the logical layout). -/
def saveMagic : Nat := 79

/-- Format version tag of the persisted table format (§6). -/
def saveVersion : Nat := 4

/-- Modelled from the spec: the logical layout of a persisted store
(§6): a header with magic/version, K, storage-variant tag, number of
tables and each table's size; then the raw counter arrays concatenated
in declared order; then the overflow-map flag and its (key, exact-count)
pairs.  The variant tag is modelled by the variant's saturation
maximum. -/
structure SavedImage where
  magic : Nat
  version : Nat
  ksize : Nat
  variantTag : Nat
  tablesizes : List Nat
  counters : List Nat
  has_bigcounts : Bool
  bigpairs : List (Nat × Nat)
deriving DecidableEq, Repr

/-- Modelled from the spec: `save(path, K)` (§4.2, §6) — serialize the
header, the concatenated raw counter arrays, and the overflow map. -/
def Storage.save (st : Storage) (k : Nat) : SavedImage :=
  ⟨saveMagic, saveVersion, k, st.maxCount, st.tables.map List.length,
    st.tables.flatten, st.use_bigcount, st.bigcounts⟩

/-- Split a flat counter stream back into per-table arrays according to
the header's table sizes (§6: loading does not resize counters). -/
def splitCounters : List Nat → List Nat → List (List Nat)
  | [], _ => []
  | sz :: rest, flat => flat.take sz :: splitCounters rest (flat.drop sz)

/-- Modelled from the spec: `load(path, K)` (§4.2, §6, §7) — validate
the magic/version, the K compatibility and the storage-variant widths,
then restore the table contents and overflow map; fail otherwise
(*PersistenceFormatError*). -/
def Storage.load (st : Storage) (img : SavedImage) (k : Nat) : Option Storage :=
  if img.magic = saveMagic ∧ img.version = saveVersion ∧ img.ksize = k ∧
      img.variantTag = st.maxCount then
    some ⟨st.maxCount, splitCounters img.tablesizes img.counters,
      img.has_bigcounts, img.bigpairs⟩
  else none

/-- The engine facade of `src/lib/hashtable.hh` (lines 73-308): K, the
owned counting store, and the bit furniture kept by `_init_bitstuff`
(lines 85-86: `HashIntoType bitmask` and `unsigned int _nbits_sub_1`). -/
structure Hashtable where
  ksize : Nat
  store : Storage
  bitmask : Nat
  nbits_sub_1 : Nat
deriving DecidableEq, Repr

/-- `_init_bitstuff`'s loop (src lines 103-106): `K` iterations of
`bitmask = (bitmask << 2) | 3` on a `uint64_t` accumulator, hence the
explicit `% 2 ^ 64`; `(m << 2) | 3` is `m * 4 + 3` since the or-ed low
bits are clear after the shift. -/
def bitmaskLoop : Nat → Nat → Nat
  | m, 0 => m
  | m, i + 1 => bitmaskLoop ((m * 4 + 3) % 2 ^ 64) i

/-- The bitmask `_init_bitstuff` computes for word length `k`
(src lines 101-108). -/
def mkBitmask (k : Nat) : Nat := bitmaskLoop 0 k

/-- The `_nbits_sub_1 = _ksize*2 - 2` assignment of `_init_bitstuff`
(src line 107), on `unsigned int` arithmetic, hence the explicit
wraparound modulo `2 ^ 32` (it only matters for `K = 0`, which
construction rejects). -/
def mkNbitsSub1 (k : Nat) : Nat := (2 * k + (2 ^ 32 - 2)) % 2 ^ 32

/-- The protected `Hashtable` constructor (src lines 88-94): record K
and the store, then `_init_bitstuff()`. -/
def Hashtable.init (k : Nat) (st : Storage) : Hashtable :=
  ⟨k, st, mkBitmask k, mkNbitsSub1 k⟩

/-- Modelled from the spec: the construction gate (§7
*ConfigurationError*: K zero, `2K` exceeding the 64-bit key width, or
zero tables/sizes supplied, are rejected at construction and no engine
is returned); on success the engine is built exactly as the src
constructor does.  Overflow tracking starts disabled (§4.2). -/
def Hashtable.create (max k : Nat) (sizes : List Nat) : Option Hashtable :=
  if k == 0 || Nat.blt 64 (2 * k) || sizes.isEmpty || sizes.contains 0 then
    none
  else
    some (Hashtable.init k (Storage.init max sizes))

/-- `Counttable` (src lines 311-316): a `Hashtable` over byte storage,
whose saturation maximum is 255 (§3). -/
def Counttable.create (k : Nat) (sizes : List Nat) : Option Hashtable :=
  Hashtable.create 255 k sizes

/-- `SmallCounttable` (src lines 319-324): nibble storage, maximum 15
(§3). -/
def SmallCounttable.create (k : Nat) (sizes : List Nat) : Option Hashtable :=
  Hashtable.create 15 k sizes

/-- `Nodetable` (src lines 327-332): bit storage, maximum 1 (§3). -/
def Nodetable.create (k : Nat) (sizes : List Nat) : Option Hashtable :=
  Hashtable.create 1 k sizes

/-- `hash_dna` (src lines 121-127): `_hash(kmer, _ksize)` — the forward
hash of the first `_ksize` characters. -/
def Hashtable.hash_dna (ht : Hashtable) (kmer : List Char) : Nat :=
  hash_forward ht.ksize (kmer.take ht.ksize)

/-- `unhash_dna` (src lines 149-155): `_revhash(hashval, _ksize)`. -/
def Hashtable.unhash_dna (ht : Hashtable) (hashval : Nat) : List Char :=
  revhash ht.ksize hashval

/-- `count(HashIntoType khash)` (src lines 161-164):
`store->add(khash)`. -/
def Hashtable.count (ht : Hashtable) (khash : Nat) : Hashtable :=
  { ht with store := ht.store.add khash }

/-- `add(HashIntoType khash)` (src lines 169-172):
`store->add(khash)`. -/
def Hashtable.add (ht : Hashtable) (khash : Nat) : Hashtable :=
  { ht with store := ht.store.add khash }

/-- `count(const char * kmer)` (src lines 157-160):
`store->add(hash_dna(kmer))`. -/
def Hashtable.count_kmer (ht : Hashtable) (kmer : List Char) : Hashtable :=
  { ht with store := ht.store.add (ht.hash_dna kmer) }

/-- `add(const char * kmer)` (src lines 165-168):
`store->add(hash_dna(kmer))`. -/
def Hashtable.add_kmer (ht : Hashtable) (kmer : List Char) : Hashtable :=
  { ht with store := ht.store.add (ht.hash_dna kmer) }

/-- `get_count(HashIntoType khash)` (src lines 179-182):
`store->get_count(khash)`. -/
def Hashtable.get_count (ht : Hashtable) (khash : Nat) : Nat :=
  ht.store.get_count khash

/-- `get_count(const char * kmer)` (src lines 175-178):
`store->get_count(hash_dna(kmer))`. -/
def Hashtable.get_count_kmer (ht : Hashtable) (kmer : List Char) : Nat :=
  ht.store.get_count (ht.hash_dna kmer)

/-- `set_use_bigcount` (src lines 222-225): delegation to the store. -/
def Hashtable.set_use_bigcount (ht : Hashtable) (b : Bool) : Hashtable :=
  { ht with store := ht.store.set_use_bigcount b }

/-- `get_tablesizes` (src lines 252-255): delegation to the store. -/
def Hashtable.get_tablesizes (ht : Hashtable) : List Nat :=
  ht.store.get_tablesizes

/-- `save(filename)` (src lines 184-187): `store->save(filename,
_ksize)`. -/
def Hashtable.save (ht : Hashtable) : SavedImage :=
  ht.store.save ht.ksize

/-- `load(filename)` (src lines 188-192): `store->load(filename,
_ksize)` followed by `_init_bitstuff()`; a failing store load aborts
the call (§7 *PersistenceFormatError*). -/
def Hashtable.load (ht : Hashtable) (img : SavedImage) : Option Hashtable :=
  match ht.store.load img ht.ksize with
  | none => none
  | some st => some (Hashtable.init ht.ksize st)

/-- Number of K-length windows of a sequence: `len - K + 1` when the
sequence holds at least one full window, 0 otherwise (§4.3). -/
def Hashtable.numWindows (ht : Hashtable) (s : List Char) : Nat :=
  if s.length < ht.ksize then 0 else s.length - ht.ksize + 1

/-- The K-length window of `s` starting at offset `i`. -/
def Hashtable.windowAt (ht : Hashtable) (s : List Char) (i : Nat) : List Char :=
  (s.drop i).take ht.ksize

/-- Modelled from the spec: `get_kmers` (§4.3, declared at src lines
262-263) — the ordered K-length substrings in sliding-window order,
`len - K + 1` of them. -/
def Hashtable.get_kmers (ht : Hashtable) (s : List Char) : List (List Char) :=
  (List.range (ht.numWindows s)).map (ht.windowAt s)

/-- Modelled from the spec: `get_kmer_counts` (§4.3, declared at src
lines 274-275) — the current counts of all windows, aligned to
sliding-window order.  Counting feeds the forward hash to the store
(the forward/canonical policy is the implementer's documented choice,
§9). -/
def Hashtable.get_kmer_counts (ht : Hashtable) (s : List Char) : List Nat :=
  (ht.get_kmers s).map (fun w => ht.store.get_count (hash_forward ht.ksize w))

/-- Modelled from the spec: the *ValidationError* kind (§7) — a
sequence shorter than K passed to an operation requiring at least one
full window. -/
inductive ValidationErr where
  | tooShort
deriving DecidableEq, Repr

/-- Modelled from the spec: `consume_string` (§4.3 `consume`, declared
at src line 195) — fails immediately when `len(sequence) < K`, leaving
the store untouched; otherwise slides the K-window across the sequence,
adds every window's key, and returns the number of windows processed.
The engine state travels alongside the result so that the error path's
effect on the store is explicit. -/
def Hashtable.consume_string (ht : Hashtable) (s : List Char) :
    Hashtable × Except ValidationErr Nat :=
  if s.length < ht.ksize then (ht, Except.error ValidationErr.tooShort)
  else ((ht.get_kmers s).foldl (fun h w => h.add_kmer w) ht,
    Except.ok (ht.numWindows s))

/-- Whether a character is one of the four DNA letters (uppercase). -/
def isDnaChar (c : Char) : Bool :=
  c == 'A' || c == 'C' || c == 'G' || c == 'T'

/-- Modelled from the spec: `check_and_normalize_read` (§4.3
`normalize_and_validate`, declared at src line 198, a `const` member) —
uppercase the sequence and report validity: every character of the
uppercased read must be one of {A,C,G,T}; invalidity is a returned
flag, not a thrown error (§7 *InvalidSequenceCharacter*). -/
def check_and_normalize_read (s : List Char) : List Char × Bool :=
  let up := s.map Char.toUpper
  (up, up.all isDnaChar)

/-- Modelled from the spec: `check_and_process_read` (declared at src
lines 201-202) — normalize and validate the read, consume it only when
valid; an invalid read leaves the store unchanged and reports
`is_valid = false` with 0 k-mers consumed. -/
def Hashtable.check_and_process_read (ht : Hashtable) (s : List Char) :
    Hashtable × Nat × Bool :=
  if (check_and_normalize_read s).2 then
    ((ht.consume_string (check_and_normalize_read s).1).1,
      (match (ht.consume_string (check_and_normalize_read s).1).2 with
        | Except.ok n => n
        | Except.error _ => 0),
      true)
  else (ht, 0, false)

/-- Left-to-right scan for the first index at which the predicate
holds, starting at `start` with `fuel` indices left to inspect. -/
def scanFirst (p : Nat → Bool) : Nat → Nat → Option Nat
  | _, 0 => none
  | start, fuel + 1 =>
    if p start then some start else scanFirst p (start + 1) fuel

/-- Modelled from the spec: `trim_on_abundance` (§4.3, declared at src
lines 297-298) — scan windows left to right and return the 0-based
start offset of the first window whose count is strictly below
`min_abund`; if no such window exists, return `len(sequence)`. -/
def Hashtable.trim_on_abundance (ht : Hashtable) (s : List Char)
    (min_abund : Nat) : Nat :=
  match scanFirst
      (fun i => decide (ht.get_count_kmer (ht.windowAt s i) < min_abund))
      0 (ht.numWindows s) with
  | some i => i
  | none => s.length

/-- Modelled from the spec: `trim_below_abundance` (§4.3, declared at
src lines 302-303) — symmetric: first window whose count exceeds
`max_abund`. -/
def Hashtable.trim_below_abundance (ht : Hashtable) (s : List Char)
    (max_abund : Nat) : Nat :=
  match scanFirst
      (fun i => decide (max_abund < ht.get_count_kmer (ht.windowAt s i)))
      0 (ht.numWindows s) with
  | some i => i
  | none => s.length

/-- The documented median of a count distribution: element `n / 2`
(the upper of the two middle values for even `n`) of the sorted counts
(§4.3, §9: the tie-break is the implementer's documented, consistent
choice). -/
def medianOf (l : List Nat) : Nat :=
  (List.insertionSort (fun a b => a ≤ b) l).getD (l.length / 2) 0

/-- Modelled from the spec: the median component of `get_median_count`
(§4.3, declared at src lines 234-237) — the median of the count
distribution over all windows (the float average/stddev outputs are
outside this embedding). -/
def Hashtable.get_median_count (ht : Hashtable) (s : List Char) : Nat :=
  medianOf (ht.get_kmer_counts s)

/-- Modelled from the spec: `median_at_least` (§4.3, declared at src
lines 231-232) — the coverage-sufficiency predicate, computed without
full statistics: at least half of the windows (`⌈n/2⌉` of `n`) must
have count at or above the cutoff. -/
def Hashtable.median_at_least (ht : Hashtable) (s : List Char)
    (cutoff : Nat) : Bool :=
  decide ((ht.numWindows s + 1) / 2 ≤
    (ht.get_kmer_counts s).countP (fun c => decide (cutoff ≤ c)))

/-- `N` successive `store->add(key)` calls. -/
def Storage.addN (st : Storage) (key : Nat) : Nat → Storage
  | 0 => st
  | n + 1 => (st.addN key n).add key

/-- `N` successive `add(khash)` calls on the engine (src lines
169-172). -/
def Hashtable.addN (ht : Hashtable) (khash : Nat) : Nat → Hashtable
  | 0 => ht
  | n + 1 => (ht.addN khash n).add khash

/-- State of a single table after `n` adds of `key` starting from
zeroed counters: the key's slot holds `min n max`, the rest hold 0. -/
def tableAfter (max key sz n : Nat) : List Nat :=
  (List.replicate sz 0).set (key % sz) (min n max)

theorem twobit_lt_four (c : Char) : twobit c < 4 := by
  unfold twobit
  split <;> omega

theorem revtwobit_twobit {c : Char} (hc : c ∈ dnaChars) :
    revtwobit (twobit c) = c := by
  simp only [dnaChars, List.mem_cons, List.not_mem_nil, or_false] at hc
  rcases hc with h | h | h | h <;> subst h <;> rfl

theorem hashAcc_append_singleton (s : List Char) (c : Char) :
    hashAcc (s ++ [c]) = hashAcc s * 4 + twobit c := by
  simp [hashAcc, List.foldl_append]

theorem hashAcc_lt (s : List Char) : hashAcc s < 4 ^ s.length := by
  induction s using List.reverseRecOn with
  | nil => simp [hashAcc]
  | append_singleton s c ih =>
    have hc := twobit_lt_four c
    rw [hashAcc_append_singleton]
    simp only [List.length_append, List.length_cons, List.length_nil]
    have : 4 ^ (s.length + 1) = 4 ^ s.length * 4 := by ring
    rw [this]
    omega

theorem revhash_hashAcc (s : List Char) (hvalid : ∀ c ∈ s, c ∈ dnaChars) :
    revhash s.length (hashAcc s) = s := by
  induction s using List.reverseRecOn with
  | nil => rfl
  | append_singleton s c ih =>
    have hc : c ∈ dnaChars := hvalid c (by simp)
    have hs : ∀ x ∈ s, x ∈ dnaChars := fun x hx => hvalid x (by simp [hx])
    have hlt := twobit_lt_four c
    rw [hashAcc_append_singleton]
    simp only [List.length_append, List.length_cons, List.length_nil]
    show revhash (s.length + 1) (hashAcc s * 4 + twobit c) = s ++ [c]
    rw [revhash]
    have hdiv : (hashAcc s * 4 + twobit c) / 4 = hashAcc s := by omega
    have hmod : (hashAcc s * 4 + twobit c) % 4 = twobit c := by omega
    rw [hdiv, hmod, revtwobit_twobit hc, ih hs]

theorem revhash_hash_forward (k : Nat) (s : List Char) (hlen : s.length = k)
    (hvalid : ∀ c ∈ s, c ∈ dnaChars) :
    revhash k (hash_forward k s) = s := by
  subst hlen
  have := hashAcc_lt s
  rw [hash_forward, Nat.mod_eq_of_lt (by exact this)]
  exact revhash_hashAcc s hvalid

theorem Hashtable.store_addN (ht : Hashtable) (khash n : Nat) :
    (ht.addN khash n).store = ht.store.addN khash n := by
  induction n with
  | zero => rfl
  | succ n ih => simp [Hashtable.addN, Storage.addN, Hashtable.add, ih]

theorem set_replicate_zero (sz i : Nat) :
    (List.replicate sz (0 : Nat)).set i 0 = List.replicate sz 0 := by
  induction sz generalizing i with
  | zero => rfl
  | succ sz ih =>
    cases i with
    | zero => simp [List.replicate_succ]
    | succ i => simp [List.replicate_succ, ih]

theorem getD_set_self (l : List Nat) (i v : Nat) (h : i < l.length) :
    (l.set i v).getD i 0 = v := by
  induction l generalizing i with
  | nil => simp at h
  | cons a l ih =>
    cases i with
    | zero => rfl
    | succ i =>
      simp only [List.set_cons_succ, List.getD, List.get?_cons_succ]
      exact ih i (by simpa using h)

/-- Projection of `Storage.add`: `maxCount` is unchanged. -/
theorem Storage.add_maxCount (st : Storage) (key : Nat) :
    (st.add key).maxCount = st.maxCount := rfl

/-- Projection of `Storage.add`: the tracking flag is unchanged. -/
theorem Storage.add_use_bigcount (st : Storage) (key : Nat) :
    (st.add key).use_bigcount = st.use_bigcount := rfl

/-- Projection of `Storage.add`: every table is bumped at the key's
slot. -/
theorem Storage.add_tables (st : Storage) (key : Nat) :
    (st.add key).tables = st.tables.map (tableBump st.maxCount key) := rfl

/-- Projection of `Storage.add`: the overflow map advances exactly when
tracking is on and every table was already saturated at the key's
slot. -/
theorem Storage.add_bigcounts (st : Storage) (key : Nat) :
    (st.add key).bigcounts =
      if st.use_bigcount && st.tables.all (tableFull st.maxCount key) then
        bigIncr key st.maxCount st.bigcounts
      else st.bigcounts := rfl

theorem tableAfter_length (max key sz n : Nat) :
    (tableAfter max key sz n).length = sz := by
  simp [tableAfter]

theorem tableAfter_getD (max key sz n : Nat) (hsz : 0 < sz) :
    (tableAfter max key sz n).getD (key % sz) 0 = min n max :=
  getD_set_self _ _ _ (by simpa using Nat.mod_lt key hsz)

theorem tableBump_tableAfter (max key sz n : Nat) (hsz : 0 < sz) :
    tableBump max key (tableAfter max key sz n)
      = tableAfter max key sz (n + 1) := by
  unfold tableBump
  rw [tableAfter_length, tableAfter_getD max key sz n hsz]
  by_cases hfull : max ≤ min n max
  · rw [if_pos hfull]
    unfold tableAfter
    congr 1
    omega
  · rw [if_neg hfull]
    show ((List.replicate sz 0).set (key % sz) (min n max)).set (key % sz)
        (min n max + 1) = (List.replicate sz 0).set (key % sz) (min (n + 1) max)
    rw [List.set_set]
    congr 1
    omega

theorem tableFull_tableAfter (max key sz n : Nat) (hsz : 0 < sz) :
    tableFull max key (tableAfter max key sz n) = decide (max ≤ n) := by
  unfold tableFull
  rw [tableAfter_length, tableAfter_getD max key sz n hsz]
  by_cases h : max ≤ n
  · have : max ≤ min n max := by omega
    simp [h, this]
  · have : ¬ max ≤ min n max := by omega
    simp [h, this]

/-- Master description of a store built by `n` adds of a single key on
a freshly constructed store with overflow tracking set to `b`: every
table carries `min n max` in the key's slot, and the overflow map holds
the exact count `n` exactly when tracking is on and the counters have
saturated strictly below `n`. -/
theorem Storage.addN_init (max key n : Nat) (sizes : List Nat) (b : Bool)
    (hne : sizes ≠ []) (hpos : ∀ sz ∈ sizes, 0 < sz) :
    (((Storage.init max sizes).set_use_bigcount b).addN key n).maxCount = max
    ∧ (((Storage.init max sizes).set_use_bigcount b).addN key n).use_bigcount = b
    ∧ (((Storage.init max sizes).set_use_bigcount b).addN key n).tables
        = sizes.map (fun sz => tableAfter max key sz n)
    ∧ (((Storage.init max sizes).set_use_bigcount b).addN key n).bigcounts
        = (if b = true ∧ max < n then [(key, n)] else []) := by
  induction n with
  | zero =>
    refine ⟨rfl, rfl, ?_, by rw [if_neg (by omega)]; rfl⟩
    exact List.map_congr_left fun sz _ => by
      simp [tableAfter, set_replicate_zero]
  | succ n ih =>
    obtain ⟨ihm, ihu, iht, ihb⟩ := ih
    have hall : (sizes.map (fun sz => tableAfter max key sz n)).all
        (tableFull max key) = decide (max ≤ n) := by
      by_cases h : max ≤ n
      · rw [decide_eq_true h, List.all_eq_true]
        intro t ht
        rcases List.mem_map.mp ht with ⟨sz2, hsz2, rfl⟩
        rw [tableFull_tableAfter max key sz2 n (hpos sz2 hsz2)]
        exact decide_eq_true h
      · rw [decide_eq_false h]
        rcases sizes with _ | ⟨sz, rest⟩
        · exact absurd rfl hne
        · simp only [List.map_cons, List.all_cons]
          rw [tableFull_tableAfter max key sz n
            (hpos sz (List.mem_cons_self sz rest)), decide_eq_false h,
            Bool.false_and]
    refine ⟨?_, ?_, ?_, ?_⟩
    · rw [Storage.addN, Storage.add_maxCount, ihm]
    · rw [Storage.addN, Storage.add_use_bigcount, ihu]
    · rw [Storage.addN, Storage.add_tables, ihm, iht, List.map_map]
      exact List.map_congr_left fun sz hsz =>
        tableBump_tableAfter max key sz n (hpos sz hsz)
    · rw [Storage.addN, Storage.add_bigcounts, ihm, ihu, iht, ihb, hall]
      by_cases h : max ≤ n
      · rw [decide_eq_true h]
        cases b with
        | false => simp
        | true =>
          rw [Bool.and_self, if_pos rfl]
          by_cases hlt : max < n
          · rw [if_pos (And.intro rfl hlt),
              if_pos (And.intro rfl (by omega : max < n + 1))]
            simp [bigIncr]
          · have hn1 : ¬ (true = true ∧ max < n) := fun hx => absurd hx.2 hlt
            have hn2 : (true = true ∧ max < n + 1) := ⟨rfl, by omega⟩
            rw [if_neg hn1, if_pos hn2]
            have hn : n = max := by omega
            rw [hn]
            rfl
      · rw [decide_eq_false h, Bool.and_false]
        have h1 : ¬ (b = true ∧ max < n) := by
          rintro ⟨_, hx⟩
          omega
        have h2 : ¬ (b = true ∧ max < n + 1) := by
          rintro ⟨_, hx⟩
          omega
        rw [if_neg h1, if_neg h2]
        simp

theorem minCount_map_tableAfter (max key n : Nat) (sizes : List Nat)
    (hne : sizes ≠ []) (hpos : ∀ sz ∈ sizes, 0 < sz) :
    (sizes.map (fun sz => tableAfter max key sz n)).foldr
      (fun t m => min (t.getD (key % t.length) 0) m) max = min n max := by
  induction sizes with
  | nil => exact absurd rfl hne
  | cons sz rest ih =>
    have hsz := hpos sz (List.mem_cons_self sz rest)
    simp only [List.map_cons, List.foldr_cons]
    rw [tableAfter_length, tableAfter_getD max key sz n hsz]
    rcases rest with _ | ⟨sz2, rest2⟩
    · simp only [List.map_nil, List.foldr_nil]
      omega
    · rw [ih (by simp) (fun s hs => hpos s (List.mem_cons_of_mem sz hs))]
      omega

/-- The count a freshly built store reports for its single key after
`n` adds: the exact count once overflow tracking has kicked in, the
saturating minimum `min n max` otherwise. -/
theorem Storage.get_count_addN_init (max key n : Nat) (sizes : List Nat)
    (b : Bool) (hne : sizes ≠ []) (hpos : ∀ sz ∈ sizes, 0 < sz) :
    (((Storage.init max sizes).set_use_bigcount b).addN key n).get_count key
      = if b = true ∧ max < n then n else min n max := by
  obtain ⟨ihm, ihu, iht, ihb⟩ := Storage.addN_init max key n sizes b hne hpos
  have hmin : (((Storage.init max sizes).set_use_bigcount b).addN key
      n).minCount key = min n max := by
    unfold Storage.minCount
    rw [iht, ihm]
    exact minCount_map_tableAfter max key n sizes hne hpos
  unfold Storage.get_count
  rw [ihu, ihb]
  by_cases hc : b = true ∧ max < n
  · rw [if_pos hc, if_pos hc, hc.1, if_pos rfl]
    simp [List.lookup]
  · rw [if_neg hc, if_neg hc]
    cases b with
    | false =>
      rw [if_neg (by simp)]
      exact hmin
    | true =>
      rw [if_pos rfl]
      exact hmin

theorem Hashtable.get_count_addN (ht : Hashtable) (key n : Nat) :
    (ht.addN key n).get_count key = (ht.store.addN key n).get_count key := by
  unfold Hashtable.get_count
  rw [Hashtable.store_addN]

/-- The constructor records the given store unchanged (src line 89). -/
theorem Hashtable.init_store (k : Nat) (st : Storage) :
    (Hashtable.init k st).store = st := rfl

/-- Claim C1 is refuted as stated: on bit storage (per-table maximum 1)
with overflow tracking off, two `add` calls for key 7 leave
`get_count 7 = 1`, strictly below the true insertion count 2 — counts
do undercount once a saturating counter is full. -/
theorem claim1_get_count_counterexample :
    ((Hashtable.init 4 ((Storage.init 1 [2]).set_use_bigcount false)).addN
        7 2).get_count 7 = 1
    ∧ ¬ (2 ≤ ((Hashtable.init 4 ((Storage.init 1 [2]).set_use_bigcount
        false)).addN 7 2).get_count 7) := by
  decide

/-- Claim C1 (amended): after `N` calls of `add(k)` on a freshly
constructed engine, `get_count(k)` is at least `min(N, the storage
variant's per-table maximum)`; and when overflow tracking is enabled,
once the overflow map holds an entry for `k`, `get_count(k)` returns
the exact insertion count `N`. -/
theorem claim1_get_count_overcount_and_exact (maxc K : Nat)
    (sizes : List Nat) (b : Bool) (key N : Nat)
    (hne : sizes ≠ []) (hpos : ∀ sz ∈ sizes, 0 < sz) :
    min N maxc ≤ ((Hashtable.init K ((Storage.init maxc
        sizes).set_use_bigcount b)).addN key N).get_count key
    ∧ (b = true → ∀ c,
        (((Hashtable.init K ((Storage.init maxc sizes).set_use_bigcount
          b)).addN key N).store.bigcounts.lookup key = some c) →
        ((Hashtable.init K ((Storage.init maxc sizes).set_use_bigcount
          b)).addN key N).get_count key = N) := by
  have hgc := Storage.get_count_addN_init maxc key N sizes b hne hpos
  obtain ⟨ihm, ihu, iht, ihb⟩ := Storage.addN_init maxc key N sizes b hne hpos
  constructor
  · rw [Hashtable.get_count_addN, Hashtable.init_store, hgc]
    by_cases hc : b = true ∧ maxc < N
    · rw [if_pos hc]
      omega
    · rw [if_neg hc]
  · intro hb c hc
    rw [Hashtable.store_addN, Hashtable.init_store, ihb] at hc
    by_cases hcnd : b = true ∧ maxc < N
    · rw [Hashtable.get_count_addN, Hashtable.init_store, hgc, if_pos hcnd]
    · rw [if_neg hcnd] at hc
      simp at hc

/-- Witness for the amended claim C1: byte-style storage with maximum
2, one table of size 3, overflow tracking on, key 5 added 4 times — the
overflow map holds an entry and `get_count` reports the exact count
4. -/
theorem claim1_get_count_overcount_and_exact_witness :
    min 4 2 ≤ ((Hashtable.init 1 ((Storage.init 2 [3]).set_use_bigcount
        true)).addN 5 4).get_count 5
    ∧ ((Hashtable.init 1 ((Storage.init 2 [3]).set_use_bigcount
        true)).addN 5 4).get_count 5 = 4 := by
  have h := claim1_get_count_overcount_and_exact 2 1 [3] true 5 4
    (by decide) (by decide)
  exact ⟨h.1, h.2 rfl 4 (by decide)⟩

/-- Claim C3: after `N` calls of `add(k)` on a freshly constructed
engine, `get_count(k)` is at least `min(N, the storage variant's
per-table maximum)`, and `get_count(k)` is monotonically non-decreasing
in `N`. -/
theorem claim3_addN_min_and_monotone (maxc K : Nat) (sizes : List Nat)
    (b : Bool) (key N : Nat)
    (hne : sizes ≠ []) (hpos : ∀ sz ∈ sizes, 0 < sz) :
    min N maxc ≤ ((Hashtable.init K ((Storage.init maxc
        sizes).set_use_bigcount b)).addN key N).get_count key
    ∧ ((Hashtable.init K ((Storage.init maxc sizes).set_use_bigcount
          b)).addN key N).get_count key
      ≤ ((Hashtable.init K ((Storage.init maxc sizes).set_use_bigcount
          b)).addN key (N + 1)).get_count key := by
  have h1 := Storage.get_count_addN_init maxc key N sizes b hne hpos
  have h2 := Storage.get_count_addN_init maxc key (N + 1) sizes b hne hpos
  rw [Hashtable.get_count_addN, Hashtable.get_count_addN,
    Hashtable.init_store, h1, h2]
  constructor
  · by_cases hc : b = true ∧ maxc < N
    · rw [if_pos hc]
      omega
    · rw [if_neg hc]
  · by_cases hc1 : b = true ∧ maxc < N
    · rw [if_pos hc1, if_pos ⟨hc1.1, by omega⟩]
      omega
    · rw [if_neg hc1]
      by_cases hc2 : b = true ∧ maxc < N + 1
      · rw [if_pos hc2]
        omega
      · rw [if_neg hc2]
        omega

/-- Witness for claim C3: nibble-style storage with maximum 3, one
table of size 5, key 2 added 7 times. -/
theorem claim3_addN_min_and_monotone_witness :
    min 7 3 ≤ ((Hashtable.init 2 ((Storage.init 3 [5]).set_use_bigcount
        false)).addN 2 7).get_count 2
    ∧ ((Hashtable.init 2 ((Storage.init 3 [5]).set_use_bigcount
          false)).addN 2 7).get_count 2
      ≤ ((Hashtable.init 2 ((Storage.init 3 [5]).set_use_bigcount
          false)).addN 2 8).get_count 2 :=
  claim3_addN_min_and_monotone 3 2 [5] false 2 7 (by decide) (by decide)

/-- Claim C2: for every valid K-length window over {A,C,G,T}, decoding
the forward hash returns the window exactly:
`unhash_dna(hash_dna(w)) = w`. -/
theorem claim2_unhash_hash_roundtrip (ht : Hashtable) (w : List Char)
    (hlen : w.length = ht.ksize) (hvalid : ∀ c ∈ w, c ∈ dnaChars) :
    ht.unhash_dna (ht.hash_dna w) = w := by
  unfold Hashtable.unhash_dna Hashtable.hash_dna
  rw [List.take_of_length_le (by omega)]
  exact revhash_hash_forward ht.ksize w hlen hvalid

/-- Witness for claim C2: the window "ACGT" on a K=4 engine
round-trips. -/
theorem claim2_unhash_hash_roundtrip_witness :
    (Hashtable.init 4 (Storage.init 255 [11])).unhash_dna
        ((Hashtable.init 4 (Storage.init 255 [11])).hash_dna
          ['A', 'C', 'G', 'T'])
      = ['A', 'C', 'G', 'T'] :=
  claim2_unhash_hash_roundtrip (Hashtable.init 4 (Storage.init 255 [11]))
    ['A', 'C', 'G', 'T'] (by decide) (by decide)

/-- Claim C10: `count` and `add` are interchangeable — the string
overloads and the hash overloads are pairwise the same function on the
engine state (src lines 157-172: all four bodies delegate to
`store->add`). -/
theorem claim10_count_eq_add (ht : Hashtable) :
    (∀ khash, ht.count khash = ht.add khash)
    ∧ (∀ kmer, ht.count_kmer kmer = ht.add_kmer kmer) :=
  ⟨fun _ => rfl, fun _ => rfl⟩

/-- Claim C6: a sequence shorter than K passed to `consume_string`
raises the validation error immediately and the engine (hence the
counting store) is unchanged by the failed call. -/
theorem claim6_consume_string_short (ht : Hashtable) (s : List Char)
    (hshort : s.length < ht.ksize) :
    ht.consume_string s = (ht, Except.error ValidationErr.tooShort) := by
  unfold Hashtable.consume_string
  rw [if_pos hshort]

/-- Witness for claim C6: a 1-character read on a K=4 engine fails and
leaves the engine untouched. -/
theorem claim6_consume_string_short_witness :
    (Hashtable.init 4 (Storage.init 255 [7])).consume_string ['A']
      = (Hashtable.init 4 (Storage.init 255 [7]),
          Except.error ValidationErr.tooShort) :=
  claim6_consume_string_short (Hashtable.init 4 (Storage.init 255 [7]))
    ['A'] (by decide)

theorem isDnaChar_iff (c : Char) : isDnaChar c = true ↔ c ∈ dnaChars := by
  unfold isDnaChar dnaChars
  simp [List.mem_cons]
  tauto

/-- Claim C7: `check_and_normalize_read` uppercases the sequence, its
flag is true exactly when every uppercased character is one of
{A,C,G,T}, and an invalid read is reported through the flag while
`check_and_process_read` leaves the counting store unchanged. -/
theorem claim7_check_and_normalize (ht : Hashtable) (s : List Char) :
    (check_and_normalize_read s).1 = s.map Char.toUpper
    ∧ ((check_and_normalize_read s).2 = true ↔
        ∀ c ∈ s, Char.toUpper c ∈ dnaChars)
    ∧ ((check_and_normalize_read s).2 = false →
        (ht.check_and_process_read s).1 = ht
        ∧ (ht.check_and_process_read s).2 = (0, false)) := by
  refine ⟨rfl, ?_, ?_⟩
  · rw [show (check_and_normalize_read s).2
        = (s.map Char.toUpper).all isDnaChar from rfl, List.all_eq_true]
    constructor
    · intro h c hc
      exact (isDnaChar_iff _).mp (h _ (List.mem_map.mpr ⟨c, hc, rfl⟩))
    · intro h x hx
      rcases List.mem_map.mp hx with ⟨c, hc, rfl⟩
      exact (isDnaChar_iff _).mpr (h c hc)
  · intro hfalse
    unfold Hashtable.check_and_process_read
    rw [if_neg (by simp [hfalse])]
    exact ⟨rfl, rfl⟩

/-- Witness for claim C7: the read "ax" uppercases to "AX", is flagged
invalid, and the engine is left unchanged. -/
theorem claim7_check_and_normalize_witness :
    ((check_and_normalize_read ['a', 'x']).2 = true ↔
      ∀ c ∈ (['a', 'x'] : List Char), Char.toUpper c ∈ dnaChars)
    ∧ ((Hashtable.init 2 (Storage.init 255 [5])).check_and_process_read
        ['a', 'x']).1 = Hashtable.init 2 (Storage.init 255 [5]) := by
  have h := claim7_check_and_normalize
    (Hashtable.init 2 (Storage.init 255 [5])) ['a', 'x']
  exact ⟨h.2.1, (h.2.2 (by decide)).1⟩

theorem splitCounters_flatten (ts : List (List Nat)) :
    splitCounters (ts.map List.length) ts.flatten = ts := by
  induction ts with
  | nil => rfl
  | cons t rest ih =>
    simp only [List.map_cons, List.flatten_cons, splitCounters]
    rw [List.take_left, List.drop_left, ih]

/-- Saving and loading a store through the persisted layout restores it
exactly. -/
theorem Storage.load_save (st : Storage) (k : Nat) :
    st.load (st.save k) k = some st := by
  unfold Storage.load Storage.save
  rw [if_pos ⟨rfl, rfl, rfl, rfl⟩, splitCounters_flatten]

/-- Claim C8: saving the store and loading the image back yields a
store with identical `get_count` results for every key and identical
`get_tablesizes`. -/
theorem claim8_save_load_roundtrip (ht : Hashtable) :
    ∃ ht2, ht.load ht.save = some ht2
      ∧ (∀ key, ht2.get_count key = ht.get_count key)
      ∧ ht2.get_tablesizes = ht.get_tablesizes := by
  refine ⟨Hashtable.init ht.ksize ht.store, ?_, fun key => rfl, rfl⟩
  unfold Hashtable.load Hashtable.save
  rw [Storage.load_save]

theorem bitmaskLoop_closed (i : Nat) : ∀ j, j + i ≤ 32 →
    bitmaskLoop (4 ^ j - 1) i = 4 ^ (j + i) - 1 := by
  induction i with
  | zero =>
    intro j h
    rw [Nat.add_zero]
    rfl
  | succ i ih =>
    intro j h
    rw [bitmaskLoop]
    have hj1 : 1 ≤ 4 ^ j := Nat.one_le_pow j 4 (by omega)
    have hp : 4 ^ (j + 1) = 4 ^ j * 4 := pow_succ 4 j
    have h4 : (4 ^ j - 1) * 4 + 3 = 4 ^ (j + 1) - 1 := by omega
    have hle : (4 : Nat) ^ (j + 1) ≤ 4 ^ 32 :=
      Nat.pow_le_pow_right (by omega) (by omega)
    have h32 : (4 : Nat) ^ 32 = 2 ^ 64 := by norm_num
    rw [h4, Nat.mod_eq_of_lt (by omega), ih (j + 1) (by omega),
      show j + 1 + i = j + (i + 1) from by omega]

/-- For word lengths that fit the 64-bit key width, `_init_bitstuff`
computes the mask with the low `2K` bits set and all higher bits
clear. -/
theorem mkBitmask_eq (k : Nat) (hk : k ≤ 32) :
    mkBitmask k = 2 ^ (2 * k) - 1 := by
  unfold mkBitmask
  rw [show (0 : Nat) = 4 ^ 0 - 1 from rfl, bitmaskLoop_closed k 0 (by omega),
    Nat.zero_add]
  congr 1
  rw [show (4 : Nat) = 2 ^ 2 from by norm_num]
  exact (pow_mul 2 2 k).symm

theorem mkNbitsSub1_eq (k : Nat) (hk : 1 ≤ k) (hk2 : k ≤ 32) :
    mkNbitsSub1 k = 2 * k - 2 := by
  unfold mkNbitsSub1
  have h32 : (2 : Nat) ^ 32 = 4294967296 := by norm_num
  rw [h32]
  omega

/-- Claim C9: after construction, and re-established after every
successful load, the engine's bitmask has exactly the low `2K` bits set
and `nbits_sub_1 = 2K - 2`. -/
theorem claim9_bitstuff_invariant (max k : Nat) (sizes : List Nat)
    (ht : Hashtable) (hcreate : Hashtable.create max k sizes = some ht) :
    (ht.bitmask = 2 ^ (2 * k) - 1 ∧ ht.nbits_sub_1 = 2 * k - 2)
    ∧ ∀ img ht2, ht.load img = some ht2 →
        ht2.bitmask = 2 ^ (2 * k) - 1 ∧ ht2.nbits_sub_1 = 2 * k - 2 := by
  unfold Hashtable.create at hcreate
  by_cases hcond : (k == 0 || Nat.blt 64 (2 * k) || sizes.isEmpty
      || sizes.contains 0) = true
  · rw [if_pos hcond] at hcreate
    cases hcreate
  · rw [if_neg hcond] at hcreate
    simp only [Bool.or_eq_true, beq_iff_eq, not_or, Nat.blt_eq] at hcond
    have hk1 : 1 ≤ k := by omega
    have hk32 : k ≤ 32 := by omega
    obtain rfl : ht = Hashtable.init k (Storage.init max sizes) :=
      (Option.some.inj hcreate).symm
    refine ⟨⟨mkBitmask_eq k hk32, mkNbitsSub1_eq k hk1 hk32⟩, ?_⟩
    intro img ht2 hload
    unfold Hashtable.load at hload
    cases hst : ((Hashtable.init k (Storage.init max sizes)).store.load img
        (Hashtable.init k (Storage.init max sizes)).ksize) with
    | none => rw [hst] at hload; cases hload
    | some st2 =>
      rw [hst] at hload
      obtain rfl : ht2 = Hashtable.init k st2 := (Option.some.inj hload).symm
      exact ⟨mkBitmask_eq k hk32, mkNbitsSub1_eq k hk1 hk32⟩

/-- Witness for claim C9: a K=4 byte-storage engine is constructed and
carries bitmask `2^8 - 1` and `nbits_sub_1 = 6`. -/
theorem claim9_bitstuff_invariant_witness :
    (Hashtable.init 4 (Storage.init 255 [3])).bitmask = 2 ^ (2 * 4) - 1
    ∧ (Hashtable.init 4 (Storage.init 255 [3])).nbits_sub_1 = 2 * 4 - 2 :=
  (claim9_bitstuff_invariant 255 4 [3]
    (Hashtable.init 4 (Storage.init 255 [3])) rfl).1

theorem scanFirst_some (p : Nat → Bool) : ∀ (fuel start i : Nat),
    scanFirst p start fuel = some i →
    start ≤ i ∧ i < start + fuel ∧ p i = true
      ∧ ∀ j, start ≤ j → j < i → p j = false := by
  intro fuel
  induction fuel with
  | zero =>
    intro start i h
    cases h
  | succ fuel ih =>
    intro start i h
    rw [scanFirst] at h
    by_cases hp : p start = true
    · rw [if_pos hp] at h
      obtain rfl : start = i := Option.some.inj h
      refine ⟨Nat.le_refl _, by omega, hp, ?_⟩
      intro j hj1 hj2
      exact absurd hj2 (by omega)
    · rw [if_neg hp] at h
      obtain ⟨h1, h2, h3, h4⟩ := ih (start + 1) i h
      refine ⟨by omega, by omega, h3, ?_⟩
      intro j hj1 hj2
      by_cases hj : j = start
      · subst hj
        exact (Bool.not_eq_true (p j)).mp hp
      · exact h4 j (by omega) hj2

theorem scanFirst_none (p : Nat → Bool) : ∀ (fuel start : Nat),
    scanFirst p start fuel = none →
    ∀ j, start ≤ j → j < start + fuel → p j = false := by
  intro fuel
  induction fuel with
  | zero =>
    intro start h j h1 h2
    exact absurd h2 (by omega)
  | succ fuel ih =>
    intro start h j h1 h2
    rw [scanFirst] at h
    by_cases hp : p start = true
    · rw [if_pos hp] at h
      cases h
    · rw [if_neg hp] at h
      by_cases hj : j = start
      · subst hj
        exact (Bool.not_eq_true (p j)).mp hp
      · exact ih (start + 1) h j (by omega) (by omega)

/-- Claim C4: `trim_on_abundance(seq, t)` returns an index `i` such
that every window at an offset below `i` has count at least `t`; if
`i` is below the number of window positions, the window at offset `i`
has count strictly below `t`; and if no window has count below `t`,
the sequence length is returned. -/
theorem claim4_trim_on_abundance (ht : Hashtable) (s : List Char) (t : Nat)
    (hK : 1 ≤ ht.ksize) (hlen : ht.ksize ≤ s.length) :
    (∀ j, j < ht.trim_on_abundance s t → j < ht.numWindows s →
      t ≤ ht.get_count_kmer (ht.windowAt s j))
    ∧ (ht.trim_on_abundance s t < ht.numWindows s →
      ht.get_count_kmer (ht.windowAt s (ht.trim_on_abundance s t)) < t)
    ∧ ((∀ j, j < ht.numWindows s → t ≤ ht.get_count_kmer (ht.windowAt s j))
        → ht.trim_on_abundance s t = s.length) := by
  cases hscan : scanFirst
      (fun i => decide (ht.get_count_kmer (ht.windowAt s i) < t))
      0 (ht.numWindows s) with
  | some i =>
    have htrim : ht.trim_on_abundance s t = i := by
      unfold Hashtable.trim_on_abundance
      rw [hscan]
    obtain ⟨h1, h2, h3, h4⟩ := scanFirst_some _ _ _ _ hscan
    simp only [decide_eq_true_eq] at h3
    rw [htrim]
    refine ⟨?_, fun _ => h3, ?_⟩
    · intro j hj hjw
      have hf := h4 j (by omega) hj
      simp only [decide_eq_false_iff_not, not_lt] at hf
      exact hf
    · intro hall
      exact absurd h3 (not_lt.mpr (hall i (by omega)))
  | none =>
    have htrim : ht.trim_on_abundance s t = s.length := by
      unfold Hashtable.trim_on_abundance
      rw [hscan]
    have hnone := scanFirst_none _ _ _ hscan
    rw [htrim]
    refine ⟨?_, ?_, fun _ => rfl⟩
    · intro j hj hjw
      have hf := hnone j (by omega) (by omega)
      simp only [decide_eq_false_iff_not, not_lt] at hf
      exact hf
    · intro hlt2
      exfalso
      have hnw : ht.numWindows s ≤ s.length := by
        unfold Hashtable.numWindows
        split <;> omega
      omega

/-- Witness for claim C4: on an empty K=2 engine every window of "ACA"
has count 0, so trimming at threshold 1 returns offset 0 and the stated
properties hold there. -/
theorem claim4_trim_on_abundance_witness :
    (∀ j, j < (Hashtable.init 2 (Storage.init 255 [5])).trim_on_abundance
        ['A', 'C', 'A'] 1 →
      j < (Hashtable.init 2 (Storage.init 255 [5])).numWindows
        ['A', 'C', 'A'] →
      1 ≤ (Hashtable.init 2 (Storage.init 255 [5])).get_count_kmer
        ((Hashtable.init 2 (Storage.init 255 [5])).windowAt
          ['A', 'C', 'A'] j))
    ∧ ((Hashtable.init 2 (Storage.init 255 [5])).trim_on_abundance
          ['A', 'C', 'A'] 1
        < (Hashtable.init 2 (Storage.init 255 [5])).numWindows
          ['A', 'C', 'A'] →
      (Hashtable.init 2 (Storage.init 255 [5])).get_count_kmer
        ((Hashtable.init 2 (Storage.init 255 [5])).windowAt ['A', 'C', 'A']
          ((Hashtable.init 2 (Storage.init 255 [5])).trim_on_abundance
            ['A', 'C', 'A'] 1)) < 1)
    ∧ ((∀ j, j < (Hashtable.init 2 (Storage.init 255 [5])).numWindows
          ['A', 'C', 'A'] →
        1 ≤ (Hashtable.init 2 (Storage.init 255 [5])).get_count_kmer
          ((Hashtable.init 2 (Storage.init 255 [5])).windowAt
            ['A', 'C', 'A'] j))
        → (Hashtable.init 2 (Storage.init 255 [5])).trim_on_abundance
            ['A', 'C', 'A'] 1 = (['A', 'C', 'A'] : List Char).length) :=
  claim4_trim_on_abundance (Hashtable.init 2 (Storage.init 255 [5]))
    ['A', 'C', 'A'] 1 (by decide) (by decide)

/-- In a sorted list split as `t ++ m :: rest`, the middle element `m`
is at least `c` exactly when at least `rest.length + 1` elements are at
least `c`. -/
theorem sorted_split_countP (t rest : List Nat) (m c : Nat)
    (hsort : List.Sorted (fun a b : Nat => a ≤ b) (t ++ m :: rest)) :
    (c ≤ m) ↔
      rest.length + 1 ≤ (t ++ m :: rest).countP (fun x => decide (c ≤ x)) := by
  obtain ⟨pt, pd, cross⟩ := List.pairwise_append.mp hsort
  have hrest : ∀ b ∈ rest, m ≤ b := (List.pairwise_cons.mp pd).1
  have hts : ∀ x ∈ t, x ≤ m := fun x hx =>
    cross x hx m (List.mem_cons_self m rest)
  rw [List.countP_append, List.countP_cons]
  constructor
  · intro hc
    have hall : rest.countP (fun x => decide (c ≤ x)) = rest.length := by
      rw [List.countP_eq_length]
      intro a ha
      exact decide_eq_true (le_trans hc (hrest a ha))
    rw [hall, if_pos (decide_eq_true hc)]
    omega
  · intro hc
    by_contra hcm
    push_neg at hcm
    have ht0 : t.countP (fun x => decide (c ≤ x)) = 0 := by
      rw [List.countP_eq_zero]
      intro a ha
      simp only [decide_eq_true_eq]
      have := hts a ha
      omega
    have hm0 : ¬ (decide (c ≤ m) = true) := by
      simp only [decide_eq_true_eq]
      omega
    rw [ht0, if_neg hm0] at hc
    have := List.countP_le_length (fun x => decide (c ≤ x)) (l := rest)
    omega

/-- The documented median of a nonempty count list is at least `c`
exactly when at least `⌈n/2⌉` of the `n` counts are at least `c`. -/
theorem median_le_iff (l : List Nat) (hne : l ≠ []) (c : Nat) :
    (c ≤ medianOf l) ↔
      (l.length + 1) / 2 ≤ l.countP (fun x => decide (c ≤ x)) := by
  have hperm := List.perm_insertionSort (fun a b : Nat => a ≤ b) l
  have hsort := List.sorted_insertionSort (fun a b : Nat => a ≤ b) l
  have hlen := hperm.length_eq
  have hpos : 0 < l.length := List.length_pos.mpr hne
  have hcount := hperm.countP_eq (fun x => decide (c ≤ x))
  have hsplit := List.take_append_drop (l.length / 2)
    (List.insertionSort (fun a b : Nat => a ≤ b) l)
  rcases hdrop : (List.insertionSort (fun a b : Nat => a ≤ b) l).drop
      (l.length / 2) with _ | ⟨m, rest⟩
  · exfalso
    have := congrArg List.length hdrop
    simp only [List.length_drop, hlen, List.length_nil] at this
    omega
  · rw [hdrop] at hsplit
    have htl : ((List.insertionSort (fun a b : Nat => a ≤ b) l).take
        (l.length / 2)).length = l.length / 2 := by
      rw [List.length_take, hlen]
      omega
    have hrl : rest.length = l.length - l.length / 2 - 1 := by
      have := congrArg List.length hdrop
      simp only [List.length_drop, hlen, List.length_cons] at this
      omega
    have hmed : medianOf l = m := by
      unfold medianOf
      rw [← hsplit, List.getD_eq_getElem?_getD,
        List.getElem?_append_right (le_of_eq htl), htl, Nat.sub_self]
      simp
    have hsort2 : List.Sorted (fun a b : Nat => a ≤ b)
        ((List.insertionSort (fun a b : Nat => a ≤ b) l).take (l.length / 2)
          ++ m :: rest) := by
      rw [hsplit]
      exact hsort
    rw [hmed, ← hcount, ← hsplit,
      sorted_split_countP _ rest m c hsort2,
      show (l.length + 1) / 2 = rest.length + 1 from by omega]

/-- Claim C5: for every sequence holding at least one full window,
`median_at_least(s, cutoff)` is true exactly when the median that
`get_median_count` reports is at least the cutoff. -/
theorem claim5_median_at_least_iff (ht : Hashtable) (s : List Char)
    (cutoff : Nat) (hlen : ht.ksize ≤ s.length) :
    (ht.median_at_least s cutoff = true ↔
      cutoff ≤ ht.get_median_count s) := by
  have hnw : ht.numWindows s = s.length - ht.ksize + 1 := by
    unfold Hashtable.numWindows
    rw [if_neg (by omega)]
  have hcl : (ht.get_kmer_counts s).length = ht.numWindows s := by
    unfold Hashtable.get_kmer_counts Hashtable.get_kmers
    simp
  have hne : ht.get_kmer_counts s ≠ [] := by
    refine List.length_pos.mp ?_
    rw [hcl, hnw]
    omega
  unfold Hashtable.median_at_least Hashtable.get_median_count
  simp only [decide_eq_true_eq]
  rw [← hcl]
  exact (median_le_iff (ht.get_kmer_counts s) hne cutoff).symm

/-- Witness for claim C5: on an empty K=2 engine, "ACG" has counts
[0, 0], median 0, and `median_at_least` at cutoff 1 is false on both
sides of the equivalence. -/
theorem claim5_median_at_least_iff_witness :
    ((Hashtable.init 2 (Storage.init 255 [7])).median_at_least
        ['A', 'C', 'G'] 1 = true ↔
      1 ≤ (Hashtable.init 2 (Storage.init 255 [7])).get_median_count
        ['A', 'C', 'G']) :=
  claim5_median_at_least_iff (Hashtable.init 2 (Storage.init 255 [7]))
    ['A', 'C', 'G'] 1 (by decide)

end Khmer
